import Mathlib

/-!
Shallow embedding of the fact-matrix reasoning engine
(`fact_matrix.py`, class `FactDatabase`).

A fact is a trust-weighted edge between two (category, value) nodes.
The store is a Python dict keyed by the ordered address pair
`((category1, value1), (category2, value2))`; since the key is derived
from the fact itself and dicts preserve insertion order (overwriting a
key keeps its position), the store is embedded as a `List Fact` whose
elements have pairwise distinct address keys.  `trust_score` (a Python
float on which the code performs only `+ - * / min max`) is embedded as
a rational number.
-/

namespace FactMatrix

/-- The `Fact` dataclass of `fact_matrix.py` (namespaced because `Fact` is
taken by Mathlib). -/
structure Fact where
  category1 : String
  value1 : String
  category2 : String
  value2 : String
  trust_score : ℚ
deriving DecidableEq

/-- An address key: the ordered pair of (category, value) node addresses. -/
abbrev AddrKey := (String × String) × (String × String)

/-- The dict key of a fact: `((fact.category1, fact.value1), (fact.category2, fact.value2))`. -/
def Fact.key (f : Fact) : AddrKey :=
  ((f.category1, f.value1), (f.category2, f.value2))

/-- The fact store: values of `self.facts` in dict (insertion) order. -/
abbrev FactDB := List Fact

/-- `add_fact`: `self.facts[key] = fact`.  If the key is present the value is
replaced in place (Python dicts keep the original key position); otherwise the
fact is appended at the end. -/
def add_fact (db : FactDB) (fact : Fact) : FactDB :=
  if db.any (fun g => decide (g.key = fact.key)) then
    db.map (fun g => if g.key = fact.key then fact else g)
  else
    db ++ [fact]

/-- Dictionary lookup `self.facts.get(key)`: the (unique, given distinct keys)
stored fact whose address key is `k`. -/
def find_fact (db : FactDB) (k : AddrKey) : Option Fact :=
  db.find? (fun g => decide (g.key = k))

/-- The store invariant of the embedding: the address keys of the stored facts
are pairwise distinct (what being a dict enforces in the source). -/
def keysDistinct (db : FactDB) : Prop :=
  (db.map Fact.key).Nodup

/-- `_directly_contradicts(fact1_key, fact2_key)`: same category pair and
exactly one side's value differs while the other side's value matches. -/
def directly_contradicts (fact1_key fact2_key : AddrKey) : Bool :=
  match fact1_key, fact2_key with
  | ((cat1_a, val1_a), (cat2_a, val2_a)), ((cat1_b, val1_b), (cat2_b, val2_b)) =>
    if cat1_a = cat1_b ∧ cat2_a = cat2_b then
      decide ((val1_a = val1_b ∧ val2_a ≠ val2_b) ∨ (val2_a = val2_b ∧ val1_a ≠ val1_b))
    else
      false

/-- `_calculate_path_trust(path)`: `0` for the empty path; otherwise start from
`path[0].trust_score` and for each later fact apply
`decay = (fact.trust_score * trust) / 10000; trust = min(trust, fact.trust_score) * decay`. -/
def calculate_path_trust (path : List Fact) : ℚ :=
  match path with
  | [] => 0
  | f0 :: rest =>
    rest.foldl (fun trust f => min trust f.trust_score * (f.trust_score * trust / 10000))
      f0.trust_score

/-- `_calculate_contradiction_impact(path)`:
`path_trust * 0.5 ** (len(path) - 1)` (integer exponent, as in Python). -/
def calculate_contradiction_impact (path : List Fact) : ℚ :=
  calculate_path_trust path * (1 / 2 : ℚ) ^ ((path.length : ℤ) - 1)

/-- Accumulator of `_find_supporting_paths`: the mutable `paths` list and the
`seen_paths` set of frozensets (a frozenset of address keys is embedded as the
duplicate-free list of keys of a recorded path, compared up to set equality). -/
structure SearchAcc where
  paths : List (List Fact)
  seen : List (List AddrKey)
deriving DecidableEq

/-- Frozenset equality of two key lists: mutual containment. -/
def sameKeySet (a b : List AddrKey) : Bool :=
  a.all (fun k => decide (k ∈ b)) && b.all (fun k => decide (k ∈ a))

/-- The body of the `for key, fact in self.facts.items()` loop of
`explore_path` for one `fact`: skip visited edges, compute where the fact
leads from the current node (`connects_to_current` / `next_val` / `next_cat`),
then either record the completed path (deduplicating by frozenset of edge
keys) or hand over to the next recursion level `deeper`.
Python mutates `visited` with `add` before the recursive call and `remove`
after; here the extended list is passed only to `deeper` while the loop
continues with the original `visited`, which is the same discipline. -/
def explore_step (target_val target_cat : String)
    (deeper : String → String → List Fact → List AddrKey → SearchAcc → SearchAcc)
    (current_val current_cat : String) (current_path : List Fact)
    (visited : List AddrKey) (fact : Fact) (acc : SearchAcc) : SearchAcc :=
  if fact.key ∈ visited then acc
  else
    let next : Option (String × String) :=
      if fact.category1 = current_cat ∧ fact.value1 = current_val then
        some (fact.value2, fact.category2)
      else if fact.category2 = current_cat ∧ fact.value2 = current_val then
        some (fact.value1, fact.category1)
      else none
    match next with
    | none => acc
    | some (next_val, next_cat) =>
      let new_path := current_path ++ [fact]
      if next_cat = target_cat ∧ next_val = target_val then
        let path_key := new_path.map Fact.key
        if acc.seen.any (fun s => sameKeySet s path_key) then acc
        else ⟨acc.paths ++ [new_path], acc.seen ++ [path_key]⟩
      else
        deeper next_val next_cat new_path (visited ++ [fact.key]) acc

/-- One level of `explore_path`: the loop over the store at a fixed current
node, with `rem` the part of the store still to iterate. `deeper` is the
recursive call made one level down (`explore_path(..., depth + 1)`). -/
def explore_path_level (target_val target_cat : String)
    (deeper : String → String → List Fact → List AddrKey → SearchAcc → SearchAcc)
    (current_val current_cat : String) (current_path : List Fact)
    (visited : List AddrKey) :
    List Fact → SearchAcc → SearchAcc
  | [], acc => acc
  | fact :: rem, acc =>
    explore_path_level target_val target_cat deeper current_val current_cat
      current_path visited rem
      (explore_step target_val target_cat deeper current_val current_cat
        current_path visited fact acc)

/-- `explore_path` of `_find_supporting_paths`, indexed by the remaining depth
budget `fuel = 4 - depth`: the source checks `depth > 3` on entry and the
top-level call starts at `depth = 0`, so a call with `fuel = 0` returns at
once and a call with positive fuel runs the loop over the whole store. -/
def explore_path (facts : List Fact) (target_val target_cat : String) :
    Nat → String → String → List Fact → List AddrKey → SearchAcc → SearchAcc
  | 0, _, _, _, _, acc => acc
  | fuel + 1, current_val, current_cat, current_path, visited, acc =>
    explore_path_level target_val target_cat
      (explore_path facts target_val target_cat fuel)
      current_val current_cat current_path visited facts acc

/-- `_find_supporting_paths(fact_key)`: depth-first search from node
`(cat1, val1)` towards `(cat2, val2)` starting with empty path, empty visited
set and empty accumulators, at `depth = 0` (`fuel = 4`). -/
def find_supporting_paths (db : FactDB) (fact_key : AddrKey) : List (List Fact) :=
  match fact_key with
  | ((cat1, val1), (cat2, val2)) =>
    (explore_path db val2 cat2 4 val1 cat1 [] [] ⟨[], []⟩).paths

/-- `_find_all_connections(category, value)`: the set of node addresses one hop
away from `(category, value)`, embedded as a duplicate-free list in encounter
order (the source uses a Python set; only membership is ever used). -/
def find_all_connections (db : FactDB) (category value : String) :
    List (String × String) :=
  db.foldl
    (fun conns fact =>
      if fact.category1 = category ∧ fact.value1 = value then
        if (fact.category2, fact.value2) ∈ conns then conns
        else conns ++ [(fact.category2, fact.value2)]
      else if fact.category2 = category ∧ fact.value2 = value then
        if (fact.category1, fact.value1) ∈ conns then conns
        else conns ++ [(fact.category1, fact.value1)]
      else conns)
    []

/-- `_leads_to_contradiction(path, fact_key)`: `False` on the empty path,
otherwise whether the last fact's address key directly contradicts `fact_key`. -/
def leads_to_contradiction (path : List Fact) (fact_key : AddrKey) : Bool :=
  match path.getLast? with
  | none => false
  | some last_fact => directly_contradicts last_fact.key fact_key

/-- `_find_indirect_contradictions(fact_key)`: for each node connected to
either endpoint, every supporting path from that endpoint to the connected
node whose last fact directly contradicts `fact_key`. -/
def find_indirect_contradictions (db : FactDB) (fact_key : AddrKey) :
    List (List Fact) :=
  match fact_key with
  | ((cat1, val1), (cat2, val2)) =>
    (find_all_connections db cat1 val1).flatMap
        (fun cv =>
          (find_supporting_paths db ((cat1, val1), cv)).filter
            (fun p => leads_to_contradiction p ((cat1, val1), (cat2, val2)))) ++
      (find_all_connections db cat2 val2).flatMap
        (fun cv =>
          (find_supporting_paths db ((cat2, val2), cv)).filter
            (fun p => leads_to_contradiction p ((cat1, val1), (cat2, val2))))

/-- Python's `max` over a non-empty iterable of rationals (the `[]` case is
never reached where this is applied in the embedded code). -/
def pyMax : List ℚ → ℚ
  | [] => 0
  | x :: xs => xs.foldl max x

/-- `get_fact_trust(category1, value1, category2, value2)`: direct
contradictions dominate, then the best supporting path, else neutral `50`. -/
def get_fact_trust (db : FactDB) (category1 value1 category2 value2 : String) : ℚ :=
  let new_fact_key : AddrKey := ((category1, value1), (category2, value2))
  let direct_contradictions :=
    db.filter (fun f => directly_contradicts new_fact_key f.key)
  if direct_contradictions.isEmpty then
    let supporting_paths := find_supporting_paths db new_fact_key
    if supporting_paths.isEmpty then 50
    else supporting_paths.foldl (fun m p => max m (calculate_path_trust p)) 0
  else
    max 0 (100 - pyMax (direct_contradictions.map Fact.trust_score))

/-- The result dict of `analyze_fact_relationships`: each fact or path paired
with its trust or impact score. -/
structure AnalyzeResult where
  direct_contradictions : List (Fact × ℚ)
  supporting_facts : List (List Fact × ℚ)
  indirect_contradictions : List (List Fact × ℚ)
deriving DecidableEq

/-- `analyze_fact_relationships(category1, value1, category2, value2)`: runs
the direct-contradiction scan, the supporting-path search and the
indirect-contradiction search independently and returns all three lists. -/
def analyze_fact_relationships (db : FactDB)
    (category1 value1 category2 value2 : String) : AnalyzeResult :=
  let new_fact_key : AddrKey := ((category1, value1), (category2, value2))
  { direct_contradictions :=
      (db.filter (fun f => directly_contradicts new_fact_key f.key)).map
        (fun f => (f, f.trust_score))
    supporting_facts :=
      (find_supporting_paths db new_fact_key).map
        (fun p => (p, calculate_path_trust p))
    indirect_contradictions :=
      (find_indirect_contradictions db new_fact_key).map
        (fun p => (p, calculate_contradiction_impact p)) }

/-- `get_all_related_facts(category, value)`: every stored fact touching the
given node, in store order. -/
def get_all_related_facts (db : FactDB) (category value : String) : List Fact :=
  db.filter
    (fun fact =>
      decide ((fact.category1 = category ∧ fact.value1 = value) ∨
        (fact.category2 = category ∧ fact.value2 = value)))

/-- The five-fact Einstein-puzzle fixture plus the two extra facts of
`test_multiple_paths` (the last of which shares the ordered address pair of
`Job=Doctor↔Drink=Coffee (70)` and overwrites it in place with trust 75),
built through `add_fact` from the empty store. -/
def examplePuzzleDB : FactDB :=
  add_fact (add_fact (add_fact (add_fact (add_fact (add_fact (add_fact []
    ⟨"Name", "Alex", "House", "Blue", 90⟩)
    ⟨"House", "Blue", "Job", "Doctor", 80⟩)
    ⟨"Job", "Doctor", "Drink", "Coffee", 70⟩)
    ⟨"Name", "Brooke", "Job", "Teacher", 85⟩)
    ⟨"House", "Red", "Job", "Teacher", 75⟩)
    ⟨"Name", "Alex", "Drink", "Coffee", 85⟩)
    ⟨"Job", "Doctor", "Drink", "Coffee", 75⟩

/-- C2. `_directly_contradicts` holds exactly when the category pairs agree
componentwise and exactly one side's value differs while the other matches;
in particular it is irreflexive on address keys. -/
theorem directly_contradicts_spec :
    (∀ c1a v1a c2a v2a c1b v1b c2b v2b : String,
      directly_contradicts ((c1a, v1a), (c2a, v2a)) ((c1b, v1b), (c2b, v2b)) = true ↔
        (c1a = c1b ∧ c2a = c2b ∧
          ((v1a = v1b ∧ v2a ≠ v2b) ∨ (v2a = v2b ∧ v1a ≠ v1b)))) ∧
    (∀ k : AddrKey, directly_contradicts k k = false) := by
  constructor
  · intro c1a v1a c2a v2a c1b v1b c2b v2b
    simp only [directly_contradicts]
    split
    · rename_i h
      simp [h.1, h.2]
    · rename_i h
      simp only [Bool.false_eq_true, false_iff]
      intro hc
      exact h ⟨hc.1, hc.2.1⟩
  · intro k
    obtain ⟨⟨c1, v1⟩, ⟨c2, v2⟩⟩ := k
    simp [directly_contradicts]

/-- `_directly_contradicts` is symmetric in its two arguments. -/
theorem directly_contradicts_symm (a b : AddrKey) :
    directly_contradicts a b = directly_contradicts b a := by
  obtain ⟨⟨c1a, v1a⟩, ⟨c2a, v2a⟩⟩ := a
  obtain ⟨⟨c1b, v1b⟩, ⟨c2b, v2b⟩⟩ := b
  simp only [directly_contradicts]
  by_cases h1 : c1a = c1b
  · by_cases h2 : c2a = c2b
    · subst h1; subst h2
      simp only [and_self, if_pos, true_and]
      rw [decide_eq_decide]
      constructor
      · rintro (⟨hv, hne⟩ | ⟨hv, hne⟩)
        · exact Or.inl ⟨hv.symm, fun hc => hne hc.symm⟩
        · exact Or.inr ⟨hv.symm, fun hc => hne hc.symm⟩
      · rintro (⟨hv, hne⟩ | ⟨hv, hne⟩)
        · exact Or.inl ⟨hv.symm, fun hc => hne hc.symm⟩
        · exact Or.inr ⟨hv.symm, fun hc => hne hc.symm⟩
    · rw [if_neg (fun hc => h2 hc.2), if_neg (fun hc => h2 hc.2.symm)]
  · rw [if_neg (fun hc => h1 hc.1), if_neg (fun hc => h1 hc.1.symm)]

/-- Unfolding one step of the `_calculate_path_trust` loop at the end of a
non-empty path. -/
theorem calculate_path_trust_append_step (p : List Fact) (f : Fact) (hp : p ≠ []) :
    calculate_path_trust (p ++ [f]) =
      min (calculate_path_trust p) f.trust_score *
        (f.trust_score * calculate_path_trust p / 10000) := by
  match p with
  | [] => exact absurd rfl hp
  | f0 :: rest =>
    simp only [calculate_path_trust, List.cons_append, List.foldl_append, List.foldl_cons,
      List.foldl_nil]

/-- C3. `_calculate_path_trust` satisfies exactly the specified recurrence:
`0` on the empty path, the fact's own trust score on a singleton path, and the
`decay`/`min` update when one more fact is appended to a non-empty path. -/
theorem calculate_path_trust_recurrence :
    calculate_path_trust [] = 0 ∧
    (∀ f : Fact, calculate_path_trust [f] = f.trust_score) ∧
    (∀ (p : List Fact) (f : Fact), p ≠ [] →
      calculate_path_trust (p ++ [f]) =
        min (calculate_path_trust p) f.trust_score *
          (f.trust_score * calculate_path_trust p / 10000)) :=
  ⟨rfl, fun _ => rfl, calculate_path_trust_append_step⟩

/-- Witness for C3: the appended-fact recurrence evaluated on a concrete
two-fact path. -/
theorem calculate_path_trust_recurrence_witness :
    calculate_path_trust
        [⟨"Name", "Alex", "House", "Blue", 90⟩, ⟨"House", "Blue", "Job", "Doctor", 80⟩] =
      min (calculate_path_trust [⟨"Name", "Alex", "House", "Blue", 90⟩]) 80 *
        (80 * calculate_path_trust [⟨"Name", "Alex", "House", "Blue", 90⟩] / 10000) := by
  have h := calculate_path_trust_recurrence.2.2
    [⟨"Name", "Alex", "House", "Blue", 90⟩] ⟨"House", "Blue", "Job", "Doctor", 80⟩
    (by decide)
  exact h

/-! ### Folded maxima (Python `max` over an iterable) -/

theorem le_foldl_max (l : List ℚ) : ∀ a : ℚ, a ≤ l.foldl max a := by
  induction l with
  | nil => intro a; exact le_refl a
  | cons x xs ih =>
    intro a
    calc a ≤ max a x := le_max_left a x
    _ ≤ xs.foldl max (max a x) := ih (max a x)

theorem mem_le_foldl_max (l : List ℚ) : ∀ (a x : ℚ), x ∈ l → x ≤ l.foldl max a := by
  induction l with
  | nil => intro a x hx; exact absurd hx (List.not_mem_nil x)
  | cons y ys ih =>
    intro a x hx
    rcases List.mem_cons.1 hx with rfl | hx
    · calc x ≤ max a x := le_max_right a x
      _ ≤ ys.foldl max (max a x) := le_foldl_max ys (max a x)
    · exact ih (max a y) x hx

theorem foldl_max_mem (l : List ℚ) : ∀ a : ℚ, l.foldl max a = a ∨ l.foldl max a ∈ l := by
  induction l with
  | nil => intro a; exact Or.inl rfl
  | cons x xs ih =>
    intro a
    rcases ih (max a x) with h | h
    · rcases max_choice a x with hm | hm
      · exact Or.inl (by rw [List.foldl_cons, h, hm])
      · exact Or.inr (by rw [List.foldl_cons, h, hm]; exact List.mem_cons_self x xs)
    · exact Or.inr (List.mem_cons_of_mem x h)

theorem pyMax_mem (l : List ℚ) (hl : l ≠ []) : pyMax l ∈ l := by
  match l with
  | [] => exact absurd rfl hl
  | x :: xs =>
    rcases foldl_max_mem xs x with h | h
    · rw [pyMax, h]; exact List.mem_cons_self x xs
    · exact List.mem_cons_of_mem x h

theorem le_pyMax (l : List ℚ) (x : ℚ) (hx : x ∈ l) : x ≤ pyMax l := by
  match l with
  | [] => exact absurd hx (List.not_mem_nil x)
  | y :: ys =>
    rcases List.mem_cons.1 hx with rfl | hx
    · exact le_foldl_max ys x
    · exact mem_le_foldl_max ys y x hx

theorem foldl_max_zero_eq_pyMax (l : List ℚ) (hl : l ≠ []) (h0 : ∀ x ∈ l, 0 ≤ x) :
    l.foldl max 0 = pyMax l := by
  match l with
  | [] => exact absurd rfl hl
  | x :: xs =>
    rw [List.foldl_cons, pyMax, max_eq_right (h0 x (List.mem_cons_self x xs))]

/-! ### Bounds of the path-trust arithmetic -/

/-- The running trust of `_calculate_path_trust` stays in `[0, 100]` as long as
the starting value and every trust score on the path do. -/
theorem foldl_trust_bounds (rest : List Fact) :
    ∀ t : ℚ, 0 ≤ t → t ≤ 100 →
      (∀ f ∈ rest, 0 ≤ f.trust_score ∧ f.trust_score ≤ 100) →
      0 ≤ rest.foldl
            (fun trust f => min trust f.trust_score * (f.trust_score * trust / 10000)) t ∧
        rest.foldl
            (fun trust f => min trust f.trust_score * (f.trust_score * trust / 10000)) t ≤
          100 := by
  induction rest with
  | nil => intro t h0 h100 _; exact ⟨h0, h100⟩
  | cons f rest ih =>
    intro t h0 h100 hall
    obtain ⟨hf0, hf100⟩ := hall f (List.mem_cons_self f rest)
    have hdecay0 : (0 : ℚ) ≤ f.trust_score * t / 10000 :=
      div_nonneg (mul_nonneg hf0 h0) (by norm_num)
    have hdecay1 : f.trust_score * t / 10000 ≤ 1 := by
      rw [div_le_one (by norm_num : (0 : ℚ) < 10000)]
      calc f.trust_score * t ≤ 100 * 100 :=
        mul_le_mul hf100 h100 h0 (by norm_num)
      _ = 10000 := by norm_num
    have hmin0 : (0 : ℚ) ≤ min t f.trust_score := le_min h0 hf0
    have hstep0 : (0 : ℚ) ≤ min t f.trust_score * (f.trust_score * t / 10000) :=
      mul_nonneg hmin0 hdecay0
    have hstep100 : min t f.trust_score * (f.trust_score * t / 10000) ≤ 100 := by
      calc min t f.trust_score * (f.trust_score * t / 10000) ≤ min t f.trust_score * 1 :=
        mul_le_mul_of_nonneg_left hdecay1 hmin0
      _ = min t f.trust_score := mul_one _
      _ ≤ t := min_le_left t f.trust_score
      _ ≤ 100 := h100
    rw [List.foldl_cons]
    exact ih (min t f.trust_score * (f.trust_score * t / 10000)) hstep0 hstep100
      (fun g hg => hall g (List.mem_cons_of_mem f hg))

/-- `_calculate_path_trust` stays in `[0, 100]` on paths whose trust scores
all lie in `[0, 100]`. -/
theorem calculate_path_trust_bounds (p : List Fact)
    (hall : ∀ f ∈ p, 0 ≤ f.trust_score ∧ f.trust_score ≤ 100) :
    0 ≤ calculate_path_trust p ∧ calculate_path_trust p ≤ 100 := by
  match p with
  | [] => exact ⟨le_refl 0, by norm_num [calculate_path_trust]⟩
  | f0 :: rest =>
    obtain ⟨h0, h100⟩ := hall f0 (List.mem_cons_self f0 rest)
    exact foldl_trust_bounds rest f0.trust_score h0 h100
      (fun g hg => hall g (List.mem_cons_of_mem f0 hg))

/-- C6 (amended: the non-increase clause is restricted to non-empty paths —
on the empty path the trust is `0` and appending a positive-trust fact raises
it to that fact's trust score).  For a non-empty path with all trust scores in
`[0, 100]`, appending a fact with trust score in `[0, 100]` never increases
`_calculate_path_trust`; appending a fact with trust score `0` always drives
the path trust to exactly `0`. -/
theorem calculate_path_trust_append_monotone :
    (∀ (p : List Fact) (f : Fact), p ≠ [] →
      (∀ g ∈ p, 0 ≤ g.trust_score ∧ g.trust_score ≤ 100) →
      0 ≤ f.trust_score → f.trust_score ≤ 100 →
      calculate_path_trust (p ++ [f]) ≤ calculate_path_trust p) ∧
    (∀ (p : List Fact) (f : Fact), f.trust_score = 0 →
      calculate_path_trust (p ++ [f]) = 0) := by
  constructor
  · intro p f hp hall hf0 hf100
    obtain ⟨hT0, hT100⟩ := calculate_path_trust_bounds p hall
    have hstep := calculate_path_trust_append_step p f hp
    rw [hstep]
    have hdecay0 : (0 : ℚ) ≤ f.trust_score * calculate_path_trust p / 10000 :=
      div_nonneg (mul_nonneg hf0 hT0) (by norm_num)
    have hdecay1 : f.trust_score * calculate_path_trust p / 10000 ≤ 1 := by
      rw [div_le_one (by norm_num : (0 : ℚ) < 10000)]
      calc f.trust_score * calculate_path_trust p ≤ 100 * 100 :=
        mul_le_mul hf100 hT100 hT0 (by norm_num)
      _ = 10000 := by norm_num
    calc min (calculate_path_trust p) f.trust_score *
          (f.trust_score * calculate_path_trust p / 10000) ≤
        calculate_path_trust p * 1 :=
      mul_le_mul (min_le_left _ _) hdecay1 hdecay0 hT0
    _ = calculate_path_trust p := mul_one _
  · intro p f hf
    match p with
    | [] => simpa [calculate_path_trust] using hf
    | f0 :: rest =>
      have hstep := calculate_path_trust_append_step (f0 :: rest) f (by simp)
      rw [hstep, hf]
      ring

/-- Witness for C6 (amended): a concrete non-empty path with an appended fact,
and the zero-trust clause at the same path. -/
theorem calculate_path_trust_append_monotone_witness :
    calculate_path_trust
        [⟨"Name", "Alex", "House", "Blue", 90⟩, ⟨"House", "Blue", "Job", "Doctor", 80⟩] ≤
      calculate_path_trust [⟨"Name", "Alex", "House", "Blue", 90⟩] ∧
    calculate_path_trust
        [⟨"Name", "Alex", "House", "Blue", 90⟩, ⟨"House", "Blue", "Job", "Doctor", 0⟩] = 0 := by
  constructor
  · exact calculate_path_trust_append_monotone.1
      [⟨"Name", "Alex", "House", "Blue", 90⟩] ⟨"House", "Blue", "Job", "Doctor", 80⟩
      (by decide) (by decide) (by decide) (by decide)
  · exact calculate_path_trust_append_monotone.2
      [⟨"Name", "Alex", "House", "Blue", 90⟩] ⟨"House", "Blue", "Job", "Doctor", 0⟩ rfl

/-- Counterexample to C6 as stated: on the empty path (all of whose facts
vacuously have trust scores in `[0, 100]`) appending the fact
`Name=Alex↔House=Blue (85)` (trust score in `[0, 100]`) strictly increases
`_calculate_path_trust` from `0` to `85`. -/
theorem calculate_path_trust_append_not_monotone :
    (∀ g ∈ ([] : List Fact), 0 ≤ g.trust_score ∧ g.trust_score ≤ 100) ∧
    (0 : ℚ) ≤ (85 : ℚ) ∧ (85 : ℚ) ≤ 100 ∧
    ¬ calculate_path_trust (([] : List Fact) ++ [⟨"Name", "Alex", "House", "Blue", 85⟩]) ≤
        calculate_path_trust ([] : List Fact) := by
  refine ⟨fun g hg => absurd hg (List.not_mem_nil g), by norm_num, by norm_num, ?_⟩
  intro h
  rw [List.nil_append] at h
  have h85 : calculate_path_trust [(⟨"Name", "Alex", "House", "Blue", 85⟩ : Fact)] = 85 := rfl
  have h0 : calculate_path_trust ([] : List Fact) = 0 := rfl
  rw [h85, h0] at h
  norm_num at h

/-! ### Invariants of the depth-first supporting-path search -/

/-- Each loop iteration of `explore_path` does one of three things: leave the
accumulator unchanged, record the one-fact extension of the current path, or
hand over to the next recursion level with the extended path and visited set. -/
theorem explore_step_cases (tv tc : String)
    (deeper : String → String → List Fact → List AddrKey → SearchAcc → SearchAcc)
    (cv cc : String) (cp : List Fact) (vis : List AddrKey) (fact : Fact)
    (acc : SearchAcc) :
    explore_step tv tc deeper cv cc cp vis fact acc = acc ∨
    explore_step tv tc deeper cv cc cp vis fact acc =
      ⟨acc.paths ++ [cp ++ [fact]], acc.seen ++ [(cp ++ [fact]).map Fact.key]⟩ ∨
    ∃ nv nc, explore_step tv tc deeper cv cc cp vis fact acc =
      deeper nv nc (cp ++ [fact]) (vis ++ [fact.key]) acc := by
  unfold explore_step
  by_cases hv : fact.key ∈ vis
  · exact Or.inl (by rw [if_pos hv])
  · rw [if_neg hv]
    by_cases h1 : fact.category1 = cc ∧ fact.value1 = cv
    · simp only [if_pos h1]
      by_cases ht : fact.category2 = tc ∧ fact.value2 = tv
      · simp only [if_pos ht]
        by_cases hs : acc.seen.any (fun s => sameKeySet s ((cp ++ [fact]).map Fact.key))
        · exact Or.inl (by simp only [if_pos hs])
        · exact Or.inr (Or.inl (by simp only [if_neg hs]))
      · exact Or.inr (Or.inr ⟨fact.value2, fact.category2, by simp only [if_neg ht]⟩)
    · simp only [if_neg h1]
      by_cases h2 : fact.category2 = cc ∧ fact.value2 = cv
      · simp only [if_pos h2]
        by_cases ht : fact.category1 = tc ∧ fact.value1 = tv
        · simp only [if_pos ht]
          by_cases hs : acc.seen.any (fun s => sameKeySet s ((cp ++ [fact]).map Fact.key))
          · exact Or.inl (by simp only [if_pos hs])
          · exact Or.inr (Or.inl (by simp only [if_neg hs]))
        · exact Or.inr (Or.inr ⟨fact.value1, fact.category1, by simp only [if_neg ht]⟩)
      · exact Or.inl (by simp only [if_neg h2])

/-- Invariant propagation through one loop level: if `deeper` preserves the
path-length bound `B` from the one-longer current path, so does the loop,
provided `B` covers the one-fact extension of the current path. -/
theorem explore_path_level_len (tv tc : String) (B : Nat)
    (deeper : String → String → List Fact → List AddrKey → SearchAcc → SearchAcc)
    (cp : List Fact) (hcp : cp.length + 1 ≤ B)
    (hdeeper : ∀ nv nc vis acc f, (∀ p ∈ SearchAcc.paths acc, p.length ≤ B) →
      ∀ p ∈ SearchAcc.paths (deeper nv nc (cp ++ [f]) vis acc), p.length ≤ B) :
    ∀ (rem : List Fact) (cv cc : String) (vis : List AddrKey) (acc : SearchAcc),
      (∀ p ∈ SearchAcc.paths acc, p.length ≤ B) →
      ∀ p ∈ SearchAcc.paths (explore_path_level tv tc deeper cv cc cp vis rem acc),
        p.length ≤ B := by
  intro rem
  induction rem with
  | nil => intro cv cc vis acc hacc; simpa [explore_path_level] using hacc
  | cons fact rest ih =>
    intro cv cc vis acc hacc
    rw [explore_path_level]
    apply ih
    rcases explore_step_cases tv tc deeper cv cc cp vis fact acc with h | h | ⟨nv, nc, h⟩
    · rw [h]; exact hacc
    · rw [h]
      intro p hp
      rcases List.mem_append.1 hp with hp | hp
      · exact hacc p hp
      · rcases List.mem_singleton.1 hp with rfl
        simpa using hcp
    · rw [h]; exact hdeeper nv nc (vis ++ [fact.key]) acc fact hacc

/-- Paths recorded by `explore_path` with depth budget `fuel` from current
path `cp` never exceed `cp.length + fuel` facts. -/
theorem explore_path_len (db : FactDB) (tv tc : String) (B : Nat) :
    ∀ (fuel : Nat) (cp : List Fact), cp.length + fuel ≤ B →
      ∀ (cv cc : String) (vis : List AddrKey) (acc : SearchAcc),
        (∀ p ∈ SearchAcc.paths acc, p.length ≤ B) →
        ∀ p ∈ SearchAcc.paths (explore_path db tv tc fuel cv cc cp vis acc),
          p.length ≤ B := by
  intro fuel
  induction fuel with
  | zero => intro cp h cv cc vis acc hacc; simpa [explore_path] using hacc
  | succ fuel ih =>
    intro cp h cv cc vis acc hacc
    rw [explore_path]
    refine explore_path_level_len tv tc B _ cp (by omega) ?_ db cv cc vis acc hacc
    intro nv nc vis' acc' f hacc'
    exact ih (cp ++ [f]) (by simp; omega) nv nc vis' acc' hacc'

/-- C4. Every path returned by `_find_supporting_paths` has at most 4 facts,
and the bound is attained: on a four-edge line graph the DFS records a 4-edge
path (the `depth > 3` check aborts only after a hop was already appended). -/
theorem find_supporting_paths_depth_bound :
    (∀ (db : FactDB) (k : AddrKey) (p : List Fact),
      p ∈ find_supporting_paths db k → p.length ≤ 4) ∧
    (∃ (db : FactDB) (k : AddrKey) (p : List Fact),
      p ∈ find_supporting_paths db k ∧ p.length = 4) := by
  constructor
  · intro db k p hp
    obtain ⟨⟨cat1, val1⟩, ⟨cat2, val2⟩⟩ := k
    exact explore_path_len db val2 cat2 4 4 [] (by simp) val1 cat1 [] ⟨[], []⟩
      (by intro q hq; exact absurd hq (List.not_mem_nil q)) p hp
  · refine ⟨[⟨"A", "a", "B", "b", 50⟩, ⟨"B", "b", "C", "c", 50⟩,
      ⟨"C", "c", "D", "d", 50⟩, ⟨"D", "d", "E", "e", 50⟩],
      (("A", "a"), ("E", "e")),
      [⟨"A", "a", "B", "b", 50⟩, ⟨"B", "b", "C", "c", 50⟩,
        ⟨"C", "c", "D", "d", 50⟩, ⟨"D", "d", "E", "e", 50⟩], ?_, rfl⟩
    decide

/-- Witness for C4: the universal bound applied to the concrete 4-edge path
found on the line-graph store. -/
theorem find_supporting_paths_depth_bound_witness :
    ([(⟨"A", "a", "B", "b", 50⟩ : Fact), ⟨"B", "b", "C", "c", 50⟩,
      ⟨"C", "c", "D", "d", 50⟩, ⟨"D", "d", "E", "e", 50⟩] : List Fact).length ≤ 4 :=
  find_supporting_paths_depth_bound.1
    [⟨"A", "a", "B", "b", 50⟩, ⟨"B", "b", "C", "c", 50⟩,
      ⟨"C", "c", "D", "d", 50⟩, ⟨"D", "d", "E", "e", 50⟩]
    (("A", "a"), ("E", "e"))
    [⟨"A", "a", "B", "b", 50⟩, ⟨"B", "b", "C", "c", 50⟩,
      ⟨"C", "c", "D", "d", 50⟩, ⟨"D", "d", "E", "e", 50⟩]
    (by decide)

/-- Invariant propagation through one loop level: every fact of every recorded
path is drawn from the store. -/
theorem explore_path_level_factsIn (db : FactDB) (tv tc : String)
    (deeper : String → String → List Fact → List AddrKey → SearchAcc → SearchAcc)
    (cp : List Fact) (hcp : ∀ f ∈ cp, f ∈ db)
    (hdeeper : ∀ nv nc vis acc f, f ∈ db →
      (∀ p ∈ SearchAcc.paths acc, ∀ g ∈ p, g ∈ db) →
      ∀ p ∈ SearchAcc.paths (deeper nv nc (cp ++ [f]) vis acc), ∀ g ∈ p, g ∈ db) :
    ∀ (rem : List Fact), (∀ f ∈ rem, f ∈ db) →
      ∀ (cv cc : String) (vis : List AddrKey) (acc : SearchAcc),
        (∀ p ∈ SearchAcc.paths acc, ∀ g ∈ p, g ∈ db) →
        ∀ p ∈ SearchAcc.paths (explore_path_level tv tc deeper cv cc cp vis rem acc),
          ∀ g ∈ p, g ∈ db := by
  intro rem
  induction rem with
  | nil => intro _ cv cc vis acc hacc; simpa [explore_path_level] using hacc
  | cons fact rest ih =>
    intro hrem cv cc vis acc hacc
    rw [explore_path_level]
    apply ih (fun f hf => hrem f (List.mem_cons_of_mem fact hf))
    rcases explore_step_cases tv tc deeper cv cc cp vis fact acc with h | h | ⟨nv, nc, h⟩
    · rw [h]; exact hacc
    · rw [h]
      intro p hp
      rcases List.mem_append.1 hp with hp | hp
      · exact hacc p hp
      · rcases List.mem_singleton.1 hp with rfl
        intro g hg
        rcases List.mem_append.1 hg with hg | hg
        · exact hcp g hg
        · rcases List.mem_singleton.1 hg with rfl
          exact hrem g (List.mem_cons_self g rest)
    · rw [h]
      exact hdeeper nv nc (vis ++ [fact.key]) acc fact
        (hrem fact (List.mem_cons_self fact rest)) hacc

/-- Every fact of every path recorded by `explore_path` is drawn from the
store (given the current path already is). -/
theorem explore_path_factsIn (db : FactDB) (tv tc : String) :
    ∀ (fuel : Nat) (cp : List Fact), (∀ f ∈ cp, f ∈ db) →
      ∀ (cv cc : String) (vis : List AddrKey) (acc : SearchAcc),
        (∀ p ∈ SearchAcc.paths acc, ∀ g ∈ p, g ∈ db) →
        ∀ p ∈ SearchAcc.paths (explore_path db tv tc fuel cv cc cp vis acc),
          ∀ g ∈ p, g ∈ db := by
  intro fuel
  induction fuel with
  | zero => intro cp _ cv cc vis acc hacc; simpa [explore_path] using hacc
  | succ fuel ih =>
    intro cp hcp cv cc vis acc hacc
    rw [explore_path]
    refine explore_path_level_factsIn db tv tc _ cp hcp ?_ db (fun f hf => hf)
      cv cc vis acc hacc
    intro nv nc vis' acc' f hf hacc'
    refine ih (cp ++ [f]) ?_ nv nc vis' acc' hacc'
    intro g hg
    rcases List.mem_append.1 hg with hg | hg
    · exact hcp g hg
    · rcases List.mem_singleton.1 hg with rfl; exact hf

/-- Every fact of every path returned by `_find_supporting_paths` is a stored
fact. -/
theorem find_supporting_paths_factsIn (db : FactDB) (k : AddrKey) :
    ∀ p ∈ find_supporting_paths db k, ∀ g ∈ p, g ∈ db := by
  obtain ⟨⟨cat1, val1⟩, ⟨cat2, val2⟩⟩ := k
  intro p hp
  exact explore_path_factsIn db val2 cat2 4 []
    (fun f hf => absurd hf (List.not_mem_nil f)) val1 cat1 [] ⟨[], []⟩
    (fun q hq => absurd hq (List.not_mem_nil q)) p hp

/-- If no stored fact directly contradicts the candidate key, the
indirect-contradiction search comes back empty: the last fact of any candidate
path is itself a stored fact, and `_directly_contradicts` is symmetric. -/
theorem find_indirect_contradictions_eq_nil (db : FactDB) (c1 v1 c2 v2 : String)
    (hdc : ∀ f ∈ db, directly_contradicts ((c1, v1), (c2, v2)) f.key = false) :
    find_indirect_contradictions db ((c1, v1), (c2, v2)) = [] := by
  have hfilter : ∀ (e : (String × String) × (String × String)),
      ∀ p ∈ find_supporting_paths db e,
        leads_to_contradiction p ((c1, v1), (c2, v2)) = false := by
    intro e p hp
    rcases hl : p.getLast? with _ | lf
    · simp [leads_to_contradiction, hl]
    · have hlf : lf ∈ db :=
        find_supporting_paths_factsIn db e p hp lf (List.mem_of_mem_getLast? hl)
      simp only [leads_to_contradiction, hl]
      rw [directly_contradicts_symm]
      exact hdc lf hlf
  simp only [find_indirect_contradictions]
  rw [List.append_eq_nil]
  constructor
  · rw [List.flatMap_eq_nil_iff]
    intro cv _
    rw [List.filter_eq_nil_iff]
    intro p hp
    simp [hfilter ((c1, v1), cv) p hp]
  · rw [List.flatMap_eq_nil_iff]
    intro cv _
    rw [List.filter_eq_nil_iff]
    intro p hp
    simp [hfilter ((c2, v2), cv) p hp]

/-- C7. On the empty store `get_fact_trust` is `50` for every input; more
generally, whenever no stored fact directly contradicts the candidate and the
supporting-path search is empty, `get_fact_trust` returns `50` and all three
lists of `analyze_fact_relationships` are empty (every function involved is
total, so no input is rejected). -/
theorem get_fact_trust_neutral_defaults :
    (∀ c1 v1 c2 v2 : String, get_fact_trust [] c1 v1 c2 v2 = 50) ∧
    (∀ (db : FactDB) (c1 v1 c2 v2 : String),
      (∀ f ∈ db, directly_contradicts ((c1, v1), (c2, v2)) f.key = false) →
      find_supporting_paths db ((c1, v1), (c2, v2)) = [] →
      get_fact_trust db c1 v1 c2 v2 = 50 ∧
      (analyze_fact_relationships db c1 v1 c2 v2).direct_contradictions = [] ∧
      (analyze_fact_relationships db c1 v1 c2 v2).supporting_facts = [] ∧
      (analyze_fact_relationships db c1 v1 c2 v2).indirect_contradictions = []) := by
  constructor
  · intro c1 v1 c2 v2; rfl
  · intro db c1 v1 c2 v2 hdc hpaths
    have hfilter : db.filter
        (fun f => directly_contradicts ((c1, v1), (c2, v2)) f.key) = [] := by
      rw [List.filter_eq_nil_iff]
      intro f hf
      simp [hdc f hf]
    refine ⟨?_, ?_, ?_, ?_⟩
    · simp only [get_fact_trust]
      rw [hfilter, hpaths]
      simp
    · simp only [analyze_fact_relationships]
      rw [hfilter, List.map_nil]
    · simp only [analyze_fact_relationships]
      rw [hpaths, List.map_nil]
    · simp only [analyze_fact_relationships]
      rw [find_indirect_contradictions_eq_nil db c1 v1 c2 v2 hdc, List.map_nil]

/-- Witness for C7: a store holding one unrelated fact, queried with a
candidate it neither contradicts nor supports. -/
theorem get_fact_trust_neutral_defaults_witness :
    get_fact_trust [⟨"X", "x", "Y", "y", 60⟩] "Name" "Alex" "Job" "Doctor" = 50 ∧
    (analyze_fact_relationships [⟨"X", "x", "Y", "y", 60⟩]
        "Name" "Alex" "Job" "Doctor").direct_contradictions = [] ∧
    (analyze_fact_relationships [⟨"X", "x", "Y", "y", 60⟩]
        "Name" "Alex" "Job" "Doctor").supporting_facts = [] ∧
    (analyze_fact_relationships [⟨"X", "x", "Y", "y", 60⟩]
        "Name" "Alex" "Job" "Doctor").indirect_contradictions = [] :=
  get_fact_trust_neutral_defaults.2 [⟨"X", "x", "Y", "y", 60⟩]
    "Name" "Alex" "Job" "Doctor" (by decide) (by decide)

/-- C5. Every path returned by `_find_indirect_contradictions` is non-empty,
its last fact directly contradicts the candidate's address pair, and it is a
supporting path from one of the candidate's endpoints to a node one hop away
from that endpoint (a member of `_find_all_connections` of the endpoint). -/
theorem find_indirect_contradictions_spec (db : FactDB) (c1 v1 c2 v2 : String)
    (p : List Fact) (hp : p ∈ find_indirect_contradictions db ((c1, v1), (c2, v2))) :
    (p ≠ [] ∧ ∃ lf, p.getLast? = some lf ∧
      directly_contradicts lf.key ((c1, v1), (c2, v2)) = true) ∧
    ((∃ X ∈ find_all_connections db c1 v1,
        p ∈ find_supporting_paths db ((c1, v1), X)) ∨
      (∃ X ∈ find_all_connections db c2 v2,
        p ∈ find_supporting_paths db ((c2, v2), X))) := by
  have hlast : ∀ q : List Fact,
      leads_to_contradiction q ((c1, v1), (c2, v2)) = true →
      q ≠ [] ∧ ∃ lf, q.getLast? = some lf ∧
        directly_contradicts lf.key ((c1, v1), (c2, v2)) = true := by
    intro q hq
    rcases hl : q.getLast? with _ | lf
    · rw [leads_to_contradiction, hl] at hq
      exact absurd hq (by simp)
    · refine ⟨?_, lf, rfl, ?_⟩
      · intro hnil
        subst hnil
        simp at hl
      · rw [leads_to_contradiction, hl] at hq
        exact hq
  simp only [find_indirect_contradictions] at hp
  rcases List.mem_append.1 hp with hp1 | hp1
  · rcases List.mem_flatMap.1 hp1 with ⟨X, hX, hpf⟩
    rcases List.mem_filter.1 hpf with ⟨hpmem, hpred⟩
    exact ⟨hlast p hpred, Or.inl ⟨X, hX, hpmem⟩⟩
  · rcases List.mem_flatMap.1 hp1 with ⟨X, hX, hpf⟩
    rcases List.mem_filter.1 hpf with ⟨hpmem, hpred⟩
    exact ⟨hlast p hpred, Or.inr ⟨X, hX, hpmem⟩⟩

/-- Witness for C5: on the store holding only `Name=Alex↔Job=Teacher (85)`,
the candidate `Name=Alex↔Job=Doctor` receives the one-fact indirect
contradiction path `[Name=Alex↔Job=Teacher]`. -/
theorem find_indirect_contradictions_spec_witness :
    (([(⟨"Name", "Alex", "Job", "Teacher", 85⟩ : Fact)] : List Fact) ≠ [] ∧
      ∃ lf, ([(⟨"Name", "Alex", "Job", "Teacher", 85⟩ : Fact)] : List Fact).getLast? =
          some lf ∧
        directly_contradicts lf.key (("Name", "Alex"), ("Job", "Doctor")) = true) ∧
    ((∃ X ∈ find_all_connections [⟨"Name", "Alex", "Job", "Teacher", 85⟩] "Name" "Alex",
        [(⟨"Name", "Alex", "Job", "Teacher", 85⟩ : Fact)] ∈
          find_supporting_paths [⟨"Name", "Alex", "Job", "Teacher", 85⟩]
            (("Name", "Alex"), X)) ∨
      (∃ X ∈ find_all_connections [⟨"Name", "Alex", "Job", "Teacher", 85⟩] "Job" "Doctor",
        [(⟨"Name", "Alex", "Job", "Teacher", 85⟩ : Fact)] ∈
          find_supporting_paths [⟨"Name", "Alex", "Job", "Teacher", 85⟩]
            (("Job", "Doctor"), X))) :=
  find_indirect_contradictions_spec [⟨"Name", "Alex", "Job", "Teacher", 85⟩]
    "Name" "Alex" "Job" "Doctor" [⟨"Name", "Alex", "Job", "Teacher", 85⟩] (by decide)

/-! ### The three branches of `get_fact_trust` -/

/-- When the direct-contradiction scan is non-empty, `get_fact_trust` returns
`max(0, 100 - max(contradicting trust scores))`. -/
theorem gft_eq_of_direct (db : FactDB) (c1 v1 c2 v2 : String)
    (hne : db.filter (fun f => directly_contradicts ((c1, v1), (c2, v2)) f.key) ≠ []) :
    get_fact_trust db c1 v1 c2 v2 =
      max 0 (100 - pyMax
        ((db.filter (fun f => directly_contradicts ((c1, v1), (c2, v2)) f.key)).map
          Fact.trust_score)) := by
  simp only [get_fact_trust]
  rw [if_neg]
  simpa [List.isEmpty_iff] using hne

/-- When the direct-contradiction scan is empty and at least one supporting
path exists, `get_fact_trust` returns `max(0, max(path trusts))`, which is the
maximum path trust as soon as the path trusts are non-negative. -/
theorem gft_eq_of_support (db : FactDB) (c1 v1 c2 v2 : String)
    (hdc : db.filter (fun f => directly_contradicts ((c1, v1), (c2, v2)) f.key) = [])
    (hne : find_supporting_paths db ((c1, v1), (c2, v2)) ≠ [])
    (h0 : ∀ q ∈ find_supporting_paths db ((c1, v1), (c2, v2)),
      0 ≤ calculate_path_trust q) :
    get_fact_trust db c1 v1 c2 v2 =
      pyMax ((find_supporting_paths db ((c1, v1), (c2, v2))).map calculate_path_trust) := by
  simp only [get_fact_trust]
  rw [hdc]
  rw [if_pos (by simp), if_neg (by simpa [List.isEmpty_iff] using hne)]
  rw [show (find_supporting_paths db ((c1, v1), (c2, v2))).foldl
        (fun m p => max m (calculate_path_trust p)) 0 =
      ((find_supporting_paths db ((c1, v1), (c2, v2))).map calculate_path_trust).foldl
        max 0 from (List.foldl_map calculate_path_trust max _ 0).symm]
  refine foldl_max_zero_eq_pyMax _ (by simpa [List.map_eq_nil_iff] using hne) ?_
  intro x hx
  rcases List.mem_map.1 hx with ⟨q, hq, rfl⟩
  exact h0 q hq

/-- When both the direct-contradiction scan and the supporting-path search are
empty, `get_fact_trust` returns the neutral default `50`. -/
theorem gft_eq_neutral (db : FactDB) (c1 v1 c2 v2 : String)
    (hdc : db.filter (fun f => directly_contradicts ((c1, v1), (c2, v2)) f.key) = [])
    (hpaths : find_supporting_paths db ((c1, v1), (c2, v2)) = []) :
    get_fact_trust db c1 v1 c2 v2 = 50 := by
  simp only [get_fact_trust]
  rw [hdc, hpaths]
  simp

/-- C1. Strict priority order of `get_fact_trust` (for stores whose trust
scores lie in the documented `[0, 100]` range): a direct contradiction yields
`max(0, 100 - M)` for `M` the maximum contradicting trust score, regardless of
supporting paths; otherwise a non-empty path search yields the maximum path
trust; otherwise the neutral `50`. -/
theorem get_fact_trust_priority (db : FactDB) (c1 v1 c2 v2 : String)
    (hrange : ∀ f ∈ db, 0 ≤ f.trust_score ∧ f.trust_score ≤ 100) :
    ((∃ f ∈ db, directly_contradicts ((c1, v1), (c2, v2)) f.key = true) →
      ∃ M, M ∈ (db.filter
          (fun f => directly_contradicts ((c1, v1), (c2, v2)) f.key)).map
            Fact.trust_score ∧
        (∀ t ∈ (db.filter
            (fun f => directly_contradicts ((c1, v1), (c2, v2)) f.key)).map
              Fact.trust_score, t ≤ M) ∧
        get_fact_trust db c1 v1 c2 v2 = max 0 (100 - M)) ∧
    ((∀ f ∈ db, directly_contradicts ((c1, v1), (c2, v2)) f.key = false) →
      find_supporting_paths db ((c1, v1), (c2, v2)) ≠ [] →
      ∃ M, M ∈ (find_supporting_paths db ((c1, v1), (c2, v2))).map
          calculate_path_trust ∧
        (∀ t ∈ (find_supporting_paths db ((c1, v1), (c2, v2))).map
            calculate_path_trust, t ≤ M) ∧
        get_fact_trust db c1 v1 c2 v2 = M) ∧
    ((∀ f ∈ db, directly_contradicts ((c1, v1), (c2, v2)) f.key = false) →
      find_supporting_paths db ((c1, v1), (c2, v2)) = [] →
      get_fact_trust db c1 v1 c2 v2 = 50) := by
  refine ⟨?_, ?_, ?_⟩
  · rintro ⟨f, hf, hdc⟩
    have hmem : f ∈ db.filter
        (fun g => directly_contradicts ((c1, v1), (c2, v2)) g.key) :=
      List.mem_filter.2 ⟨hf, hdc⟩
    have hne : db.filter
        (fun g => directly_contradicts ((c1, v1), (c2, v2)) g.key) ≠ [] :=
      List.ne_nil_of_mem hmem
    have hmapne : (db.filter
        (fun g => directly_contradicts ((c1, v1), (c2, v2)) g.key)).map
          Fact.trust_score ≠ [] := by
      simpa [List.map_eq_nil_iff] using hne
    exact ⟨_, pyMax_mem _ hmapne, fun t ht => le_pyMax _ t ht,
      gft_eq_of_direct db c1 v1 c2 v2 hne⟩
  · intro hdc hne
    have hfilter : db.filter
        (fun f => directly_contradicts ((c1, v1), (c2, v2)) f.key) = [] := by
      rw [List.filter_eq_nil_iff]
      intro f hf
      simp [hdc f hf]
    have h0 : ∀ q ∈ find_supporting_paths db ((c1, v1), (c2, v2)),
        0 ≤ calculate_path_trust q := by
      intro q hq
      exact (calculate_path_trust_bounds q
        (fun g hg => hrange g
          (find_supporting_paths_factsIn db ((c1, v1), (c2, v2)) q hq g hg))).1
    have hmapne : (find_supporting_paths db ((c1, v1), (c2, v2))).map
        calculate_path_trust ≠ [] := by
      simpa [List.map_eq_nil_iff] using hne
    exact ⟨_, pyMax_mem _ hmapne, fun t ht => le_pyMax _ t ht,
      gft_eq_of_support db c1 v1 c2 v2 hfilter hne h0⟩
  · intro hdc hpaths
    refine gft_eq_neutral db c1 v1 c2 v2 ?_ hpaths
    rw [List.filter_eq_nil_iff]
    intro f hf
    simp [hdc f hf]

/-- Witness for C1: the direct-contradiction branch on a one-fact store
(`Name=Brooke↔House=Blue (90)` contradicts candidate `Name=Alex↔House=Blue`),
giving trust `max(0, 100 - 90) = 10`. -/
theorem get_fact_trust_priority_witness :
    ∃ M, M ∈ (([(⟨"Name", "Brooke", "House", "Blue", 90⟩ : Fact)] : FactDB).filter
        (fun f => directly_contradicts (("Name", "Alex"), ("House", "Blue")) f.key)).map
          Fact.trust_score ∧
      (∀ t ∈ (([(⟨"Name", "Brooke", "House", "Blue", 90⟩ : Fact)] : FactDB).filter
          (fun f => directly_contradicts (("Name", "Alex"), ("House", "Blue")) f.key)).map
            Fact.trust_score, t ≤ M) ∧
      get_fact_trust [⟨"Name", "Brooke", "House", "Blue", 90⟩]
          "Name" "Alex" "House" "Blue" = max 0 (100 - M) :=
  (get_fact_trust_priority [⟨"Name", "Brooke", "House", "Blue", 90⟩]
    "Name" "Alex" "House" "Blue" (by decide)).1 (by decide)

/-- C10. The scalar `get_fact_trust` is fully determined by the
`analyze_fact_relationships` result on the same input (for stores whose trust
scores lie in the documented `[0, 100]` range): non-empty
`direct_contradictions` forces `max(0, 100 - M)` for `M` the maximum recorded
trust, else non-empty `supporting_facts` forces the maximum recorded trust,
else `50`. -/
theorem get_fact_trust_refines_analyze (db : FactDB) (c1 v1 c2 v2 : String)
    (hrange : ∀ f ∈ db, 0 ≤ f.trust_score ∧ f.trust_score ≤ 100) :
    ((analyze_fact_relationships db c1 v1 c2 v2).direct_contradictions ≠ [] →
      ∃ M, M ∈ ((analyze_fact_relationships db c1 v1 c2 v2).direct_contradictions).map
          Prod.snd ∧
        (∀ t ∈ ((analyze_fact_relationships db c1 v1 c2 v2).direct_contradictions).map
            Prod.snd, t ≤ M) ∧
        get_fact_trust db c1 v1 c2 v2 = max 0 (100 - M)) ∧
    ((analyze_fact_relationships db c1 v1 c2 v2).direct_contradictions = [] →
      (analyze_fact_relationships db c1 v1 c2 v2).supporting_facts ≠ [] →
      ∃ M, M ∈ ((analyze_fact_relationships db c1 v1 c2 v2).supporting_facts).map
          Prod.snd ∧
        (∀ t ∈ ((analyze_fact_relationships db c1 v1 c2 v2).supporting_facts).map
            Prod.snd, t ≤ M) ∧
        get_fact_trust db c1 v1 c2 v2 = M) ∧
    ((analyze_fact_relationships db c1 v1 c2 v2).direct_contradictions = [] →
      (analyze_fact_relationships db c1 v1 c2 v2).supporting_facts = [] →
      get_fact_trust db c1 v1 c2 v2 = 50) := by
  have hdmap : ((analyze_fact_relationships db c1 v1 c2 v2).direct_contradictions).map
      Prod.snd =
      (db.filter (fun f => directly_contradicts ((c1, v1), (c2, v2)) f.key)).map
        Fact.trust_score := by
    simp [analyze_fact_relationships, List.map_map, Function.comp]
  have hsmap : ((analyze_fact_relationships db c1 v1 c2 v2).supporting_facts).map
      Prod.snd =
      (find_supporting_paths db ((c1, v1), (c2, v2))).map calculate_path_trust := by
    simp [analyze_fact_relationships, List.map_map, Function.comp]
  have hdnil : (analyze_fact_relationships db c1 v1 c2 v2).direct_contradictions = [] ↔
      db.filter (fun f => directly_contradicts ((c1, v1), (c2, v2)) f.key) = [] := by
    simp [analyze_fact_relationships, List.map_eq_nil_iff]
  have hsnil : (analyze_fact_relationships db c1 v1 c2 v2).supporting_facts = [] ↔
      find_supporting_paths db ((c1, v1), (c2, v2)) = [] := by
    simp [analyze_fact_relationships, List.map_eq_nil_iff]
  refine ⟨?_, ?_, ?_⟩
  · intro hne
    have hfne : db.filter
        (fun f => directly_contradicts ((c1, v1), (c2, v2)) f.key) ≠ [] :=
      fun h => hne (hdnil.2 h)
    rw [hdmap]
    have hmapne : (db.filter
        (fun f => directly_contradicts ((c1, v1), (c2, v2)) f.key)).map
          Fact.trust_score ≠ [] := by
      simpa [List.map_eq_nil_iff] using hfne
    exact ⟨_, pyMax_mem _ hmapne, fun t ht => le_pyMax _ t ht,
      gft_eq_of_direct db c1 v1 c2 v2 hfne⟩
  · intro hdc hne
    have hfilter := hdnil.1 hdc
    have hpne : find_supporting_paths db ((c1, v1), (c2, v2)) ≠ [] :=
      fun h => hne (hsnil.2 h)
    have h0 : ∀ q ∈ find_supporting_paths db ((c1, v1), (c2, v2)),
        0 ≤ calculate_path_trust q := by
      intro q hq
      exact (calculate_path_trust_bounds q
        (fun g hg => hrange g
          (find_supporting_paths_factsIn db ((c1, v1), (c2, v2)) q hq g hg))).1
    rw [hsmap]
    have hmapne : (find_supporting_paths db ((c1, v1), (c2, v2))).map
        calculate_path_trust ≠ [] := by
      simpa [List.map_eq_nil_iff] using hpne
    exact ⟨_, pyMax_mem _ hmapne, fun t ht => le_pyMax _ t ht,
      gft_eq_of_support db c1 v1 c2 v2 hfilter hpne h0⟩
  · intro hdc hpaths
    exact gft_eq_neutral db c1 v1 c2 v2 (hdnil.1 hdc) (hsnil.1 hpaths)

/-- Witness for C10: the supporting-facts branch on the two-fact chain
`Name=Alex↔House=Blue (90)`, `House=Blue↔Job=Doctor (80)` for candidate
`Name=Alex↔Job=Doctor`. -/
theorem get_fact_trust_refines_analyze_witness :
    ∃ M, M ∈ ((analyze_fact_relationships
        [⟨"Name", "Alex", "House", "Blue", 90⟩, ⟨"House", "Blue", "Job", "Doctor", 80⟩]
        "Name" "Alex" "Job" "Doctor").supporting_facts).map Prod.snd ∧
      (∀ t ∈ ((analyze_fact_relationships
          [⟨"Name", "Alex", "House", "Blue", 90⟩, ⟨"House", "Blue", "Job", "Doctor", 80⟩]
          "Name" "Alex" "Job" "Doctor").supporting_facts).map Prod.snd, t ≤ M) ∧
      get_fact_trust
          [⟨"Name", "Alex", "House", "Blue", 90⟩, ⟨"House", "Blue", "Job", "Doctor", 80⟩]
          "Name" "Alex" "Job" "Doctor" = M :=
  (get_fact_trust_refines_analyze
    [⟨"Name", "Alex", "House", "Blue", 90⟩, ⟨"House", "Blue", "Job", "Doctor", 80⟩]
    "Name" "Alex" "Job" "Doctor" (by decide)).2.1 (by decide) (by decide)

/-! ### The dictionary semantics of `add_fact` -/

/-- After overwriting, looking up the written key in the updated store yields
the new fact, provided some stored fact carries that key. -/
theorem find?_map_update (f : Fact) :
    ∀ db : List Fact, (∃ g ∈ db, g.key = f.key) →
      (db.map (fun g => if g.key = f.key then f else g)).find?
        (fun g => decide (g.key = f.key)) = some f := by
  intro db
  induction db with
  | nil => rintro ⟨g, hg, _⟩; exact absurd hg (List.not_mem_nil g)
  | cons g rest ih =>
    rintro ⟨g0, hg0, hkey0⟩
    by_cases hgk : g.key = f.key
    · simp [List.find?_cons, hgk]
    · have hrest : g0 ∈ rest := by
        rcases List.mem_cons.1 hg0 with rfl | h
        · exact absurd hkey0 hgk
        · exact h
      simp only [List.map_cons, if_neg hgk, List.find?_cons, decide_eq_false hgk]
      exact ih ⟨g0, hrest, hkey0⟩

/-- Overwriting a key leaves lookups of every other key unchanged. -/
theorem find?_map_update_ne (f : Fact) (k : AddrKey) (hk : k ≠ f.key) :
    ∀ db : List Fact,
      (db.map (fun g => if g.key = f.key then f else g)).find?
          (fun g => decide (g.key = k)) =
        db.find? (fun g => decide (g.key = k)) := by
  intro db
  induction db with
  | nil => rfl
  | cons g rest ih =>
    by_cases hgk : g.key = f.key
    · have h1 : decide (f.key = k) = false := decide_eq_false (fun h => hk h.symm)
      have h2 : decide (g.key = k) = false :=
        decide_eq_false (fun h => hk (hgk.symm.trans h).symm)
      simp only [List.map_cons, if_pos hgk, List.find?_cons, h1, h2]
      exact ih
    · simp only [List.map_cons, if_neg hgk, List.find?_cons]
      cases hd : decide (g.key = k)
      · simpa using ih
      · rfl

/-- C8. The store keeps at most one fact per ordered address pair and
`add_fact` preserves this invariant; after `add_fact(f)` the entry at `f`'s
address pair is exactly `f` (silent overwrite, last-write-wins) and the entry
at every other address pair is unchanged.  (The query operations of the
embedding are pure functions of the store and cannot modify it.) -/
theorem add_fact_spec (db : FactDB) (f : Fact) (hdb : keysDistinct db) :
    keysDistinct (add_fact db f) ∧
    find_fact (add_fact db f) f.key = some f ∧
    ∀ k : AddrKey, k ≠ f.key → find_fact (add_fact db f) k = find_fact db k := by
  by_cases hmem : db.any (fun g => decide (g.key = f.key)) = true
  · have hrepl : add_fact db f = db.map (fun g => if g.key = f.key then f else g) := by
      rw [add_fact, if_pos hmem]
    obtain ⟨g0, hg0, hkey0⟩ := List.any_eq_true.1 hmem
    have hkey0 : g0.key = f.key := of_decide_eq_true hkey0
    refine ⟨?_, ?_, ?_⟩
    · rw [keysDistinct, hrepl, List.map_map]
      have : (Fact.key ∘ fun g => if g.key = f.key then f else g) = Fact.key := by
        funext g
        by_cases hgk : g.key = f.key
        · simp [Function.comp, hgk]
        · simp [Function.comp, hgk]
      rw [this]
      exact hdb
    · rw [hrepl]
      exact find?_map_update f db ⟨g0, hg0, hkey0⟩
    · intro k hk
      rw [hrepl, find_fact, find_fact]
      exact find?_map_update_ne f k hk db
  · have happ : add_fact db f = db ++ [f] := by
      rw [add_fact, if_neg hmem]
    have hnot : ∀ g ∈ db, g.key ≠ f.key := by
      intro g hg heq
      exact hmem (List.any_eq_true.2 ⟨g, hg, decide_eq_true heq⟩)
    refine ⟨?_, ?_, ?_⟩
    · rw [keysDistinct, happ, List.map_append]
      rw [List.nodup_append]
      refine ⟨hdb, List.nodup_singleton f.key, ?_⟩
      intro x hx hx1
      rcases List.mem_map.1 hx with ⟨g, hg, rfl⟩
      rcases List.mem_singleton.1 hx1 with h
      exact hnot g hg h
    · rw [happ, find_fact, List.find?_append]
      have hnone : db.find? (fun g => decide (g.key = f.key)) = none :=
        List.find?_eq_none.2 (fun g hg => by simp [hnot g hg])
      rw [hnone, Option.none_or]
      simp [List.find?_cons]
    · intro k hk
      rw [happ, find_fact, List.find?_append, find_fact]
      have hnone : [f].find? (fun g => decide (g.key = k)) = none :=
        List.find?_eq_none.2 (fun g hg => by
          rcases List.mem_singleton.1 hg with rfl
          simp only [decide_eq_true_eq]
          exact fun h => hk h.symm)
      rw [hnone, Option.or_none]

/-- Witness for C8: overwriting the one stored fact at its own address pair
with a higher-trust copy; lookups of the written key and of a fresh key. -/
theorem add_fact_spec_witness :
    keysDistinct (add_fact [⟨"Name", "Alex", "House", "Blue", 90⟩]
      ⟨"Name", "Alex", "House", "Blue", 95⟩) ∧
    find_fact (add_fact [⟨"Name", "Alex", "House", "Blue", 90⟩]
        ⟨"Name", "Alex", "House", "Blue", 95⟩)
        (Fact.key ⟨"Name", "Alex", "House", "Blue", 95⟩) =
      some ⟨"Name", "Alex", "House", "Blue", 95⟩ ∧
    find_fact (add_fact [⟨"Name", "Alex", "House", "Blue", 90⟩]
        ⟨"Name", "Alex", "House", "Blue", 95⟩) (("Job", "Doctor"), ("Drink", "Coffee")) =
      find_fact [⟨"Name", "Alex", "House", "Blue", 90⟩]
        (("Job", "Doctor"), ("Drink", "Coffee")) := by
  have h := add_fact_spec [⟨"Name", "Alex", "House", "Blue", 90⟩]
    ⟨"Name", "Alex", "House", "Blue", 95⟩ (by unfold keysDistinct; decide)
  exact ⟨h.1, h.2.1, h.2.2 (("Job", "Doctor"), ("Drink", "Coffee")) (by decide)⟩

/-- C9. On the puzzle fixture extended by the two facts of
`test_multiple_paths` (the second being an in-place overwrite), the analysis
of candidate `Name=Alex↔Job=Doctor` finds exactly two supporting paths. -/
theorem analyze_multiple_paths_exactly_two :
    (analyze_fact_relationships examplePuzzleDB
        "Name" "Alex" "Job" "Doctor").supporting_facts.length = 2 := by
  decide

end FactMatrix
